import Mathlib

/-!
Verification of the flowing-text layout engine of TTQC (src/TTQC.py).

Strings are modelled as `List Char`; Python `str.split()` becomes `pyWords`,
`str.find` / the `in` operator become `strFind`, and the layout routines
`TimeImageGenerator.wrap_text` and `TimeImageGenerator.create_flowing_text`
are translated function by function.  Pixel measurement (`font.getbbox`)
is an abstract parameter `measure : List Char → Nat`.
-/

namespace TTQC

/-- The two quote styles plus the attribution font, used to tag draw
commands with the font they are rendered in. -/
inductive FontKind where
  | normal
  | highlight
  | attribution
deriving DecidableEq, Repr

/-- Python `str.split()` treats these characters as whitespace
(space, tab, newline, carriage return, vertical tab, form feed). -/
def isPySpace (c : Char) : Bool :=
  c = ' ' || c = '\t' || c = '\n' || c = '\x0d' || c = '\x0b' || c = '\x0c'

/-- Worker for `pyWords`: `cur` is the reversed chunk of the word being read. -/
def pyWordsAux : List Char → List Char → List (List Char)
  | [], cur => if cur = [] then [] else [cur.reverse]
  | c :: rest, cur =>
    if isPySpace c then
      if cur = [] then pyWordsAux rest []
      else cur.reverse :: pyWordsAux rest []
    else pyWordsAux rest (c :: cur)

/-- Python `text.split()`: the maximal runs of non-whitespace characters. -/
def pyWords (s : List Char) : List (List Char) := pyWordsAux s []

/-- One step of the greedy wrap loop of `TimeImageGenerator.wrap_text`
(src/TTQC.py lines 346-358).  State is `(lines, current_line)`. -/
def wrapStep (measure : List Char → Nat) (maxWidth : Nat) :
    List (List Char) × List Char → List Char → List (List Char) × List Char
  | (lines, cur), word =>
    let test := cur ++ (if cur = [] then [] else [' ']) ++ word
    if measure test ≤ maxWidth then (lines, test)
    else if cur ≠ [] then (lines ++ [cur], word)
    else (lines ++ [word], [])

/-- `TimeImageGenerator.wrap_text` (src/TTQC.py lines 340-363): greedy
word-wrap of `text` against `maxWidth`, flushing the final buffer. -/
def wrap_text (measure : List Char → Nat) (maxWidth : Nat) (text : List Char) :
    List (List Char) :=
  let st := (pyWords text).foldl (wrapStep measure maxWidth) ([], [])
  if st.2 = [] then st.1 else st.1 ++ [st.2]

/-- One entry of `formatting_info` built in
`TimeImageGenerator.create_flowing_text` (src/TTQC.py lines 417-422):
a character range `[start, stop)` of the merged text, whether it is
highlighted, and the segment's own text. -/
structure Span where
  start : Nat
  stop : Nat
  highlighted : Bool
  text : List Char
deriving DecidableEq, Repr

/-- One step of the paragraph-building loop of
`TimeImageGenerator.create_flowing_text` (src/TTQC.py lines 405-422):
skip an empty part; otherwise append a single space separator when the
accumulated text is non-empty and the part does not start with a space
character, then append the part and record its span. -/
def buildStep : List Char × List Span → List Char × Bool → List Char × List Span
  | (acc, spans), (text, hl) =>
    if text = [] then (acc, spans)
    else
      let acc2 := if acc ≠ [] ∧ text.head? ≠ some ' ' then acc ++ [' '] else acc
      let acc3 := acc2 ++ text
      (acc3, spans ++ [⟨acc2.length, acc3.length, hl, text⟩])

/-- The paragraph builder: folds `buildStep` over the quote parts, producing
the merged `complete_text` and the `formatting_info` list. -/
def buildParagraph (parts : List (List Char × Bool)) : List Char × List Span :=
  parts.foldl buildStep ([], [])

/-- Python `line.find(pat)` (and the `in` operator via `isSome`): the index
of the leftmost occurrence of `pat` in `s`, if any. -/
def strFind (pat : List Char) : List Char → Option Nat
  | [] => if pat = [] then some 0 else none
  | c :: rest =>
    if pat.isPrefixOf (c :: rest) then some 0
    else (strFind pat rest).map (fun n => n + 1)

/-- `pat` occurs as a contiguous substring of `s` at index `k`. -/
def occursAt (pat s : List Char) (k : Nat) : Prop :=
  k + pat.length ≤ s.length ∧ pat <+: s.drop k

instance (pat s : List Char) (k : Nat) : Decidable (occursAt pat s k) := by
  unfold occursAt; infer_instance

/-- The loop over `formatting_info` at src/TTQC.py line 433-434: the first
span that is highlighted and whose full text occurs in the line. -/
def findFirstHl (spans : List Span) (line : List Char) : Option Span :=
  spans.find? (fun i => i.highlighted && (strFind i.text line).isSome)

/-- The styled runs one wrapped line is rendered as
(src/TTQC.py lines 428-462): when some highlighted span's full text occurs
in the line, split at the leftmost occurrence into an optional Normal run
before it, one Highlight run, and an optional Normal run after it;
otherwise the whole line is one Normal run. -/
def styleLine (spans : List Span) (line : List Char) :
    List (List Char × FontKind) :=
  match findFirstHl spans line with
  | none => [(line, FontKind.normal)]
  | some info =>
    let hs := (strFind info.text line).getD 0
    let after := line.drop (hs + info.text.length)
    (if 0 < hs then [(line.take hs, FontKind.normal)] else []) ++
      [(info.text, FontKind.highlight)] ++
      (if after ≠ [] then [(after, FontKind.normal)] else [])

/-- A positioned draw command handed to the render sink:
`draw.text((x, y), text, font=...)`. -/
structure DrawCmd where
  x : Int
  y : Int
  text : List Char
  font : FontKind
deriving DecidableEq, Repr

/-- The drawing of one wrapped line (src/TTQC.py lines 428-462): the text
before the highlight (when non-empty) in the normal font, the highlight
text in the highlight font, the remainder (when non-empty) in the normal
font, each advancing `current_x` by the drawn text's width in its own
font; a line with no full highlight occurrence is drawn whole in the
normal font. -/
def drawLine (mN mH : List Char → Nat) (spans : List Span) (x0 y : Int)
    (line : List Char) : List DrawCmd :=
  match findFirstHl spans line with
  | none => [⟨x0, y, line, FontKind.normal⟩]
  | some info =>
    let hs := (strFind info.text line).getD 0
    let before := line.take hs
    let after := line.drop (hs + info.text.length)
    let x1 : Int := if 0 < hs then x0 + mN before else x0
    (if 0 < hs then [⟨x0, y, before, FontKind.normal⟩] else []) ++
      ⟨x1, y, info.text, FontKind.highlight⟩ ::
        (if after ≠ [] then [⟨x1 + mH info.text, y, after, FontKind.normal⟩] else [])

/-- The per-line quote drawing loop (src/TTQC.py lines 428-464): `x` resets
to `x0` at each line and `y` advances by `step` after each line. -/
def quoteLoop (mN mH : List Char → Nat) (spans : List Span) (x0 : Int)
    (step : Nat) : Int → List (List Char) → List DrawCmd
  | _, [] => []
  | y, l :: ls =>
    drawLine mN mH spans x0 y l ++ quoteLoop mN mH spans x0 step (y + step) ls

/-- The attribution lines (src/TTQC.py lines 470-474): the book title when
present, then the author prefixed with an em-dash marker when present. -/
def attributionParts (title author : List Char) : List (List Char) :=
  (if title ≠ [] then [title] else []) ++
    (if author ≠ [] then [['—', ' '] ++ author] else [])

/-- The attribution drawing loop (src/TTQC.py lines 491-493): each part at
`x`, with `y` advancing by `step` after each part. -/
def attrLoop (x : Int) (step : Nat) : Int → List (List Char) → List DrawCmd
  | _, [] => []
  | y, p :: ps => ⟨x, y, p, FontKind.attribution⟩ :: attrLoop x step (y + step) ps

/-- The attribution block (src/TTQC.py lines 469-493): when any part is
present, the block's height is `count * (fontSize + lineSpacing) -
lineSpacing` and its first line sits at `imageHeight - 50 - height`. -/
def attributionDraws (imageHeight fsA lsA : Nat) (x : Int)
    (title author : List Char) : List DrawCmd :=
  let parts := attributionParts title author
  if parts = [] then []
  else
    let height : Int := parts.length * (fsA + lsA) - lsA
    attrLoop x (fsA + lsA) ((imageHeight : Int) - 50 - height) parts

/-- The full layout pass of `TimeImageGenerator.create_flowing_text`
(src/TTQC.py lines 365-493), abstracted over the three measure functions:
build the paragraph from the three quote parts, wrap it to `maxW` with the
normal-font measure, draw the wrapped lines starting at
`((imageWidth - maxW) // 2, 50)`, then draw the attribution block. -/
def createFlowingDraws (mN mH : List Char → Nat)
    (imageWidth imageHeight fsQ lsQ maxW fsA lsA : Nat)
    (p1 p2 p3 title author : List Char) : List DrawCmd :=
  let para := buildParagraph [(p1, false), (p2, true), (p3, false)]
  let lines := wrap_text mN maxW para.1
  let startX : Int := ((imageWidth : Int) - (maxW : Int)).fdiv 2
  quoteLoop mN mH para.2 startX (fsQ + lsQ) 50 lines ++
    attributionDraws imageHeight fsA lsA startX title author

/-- The run texts preceding the first highlight-font run of a styled line
(used to state where the highlight run is placed). -/
def runsBefore : List (List Char × FontKind) → List (List Char)
  | [] => []
  | r :: rs => if r.2 = FontKind.highlight then [] else r.1 :: runsBefore rs

/-- Words joined by single spaces, the shape of a wrapped line's buffer. -/
def sepJoin : List (List Char) → List Char
  | [] => []
  | [w] => w
  | w :: ws => w ++ ' ' :: sepJoin ws

/-- A word: non-empty and free of whitespace characters. -/
def IsWord (w : List Char) : Prop :=
  w ≠ [] ∧ ∀ c ∈ w, isPySpace c = false

instance (w : List Char) : Decidable (IsWord w) := by
  unfold IsWord; infer_instance

/-- The width a drawn run advances `current_x` by: its text measured in its
own font (the attribution font never occurs in a quote line). -/
def fontWidth (mN mH : List Char → Nat) (d : DrawCmd) : Nat :=
  match d.font with
  | FontKind.highlight => mH d.text
  | _ => mN d.text

/-! ### Properties of the substring search `strFind` -/

theorem occursAt_zero {pat s : List Char} : occursAt pat s 0 ↔ pat <+: s := by
  unfold occursAt
  constructor
  · intro h
    simpa using h.2
  · intro h
    exact ⟨by simpa using h.length_le, by simpa using h⟩

theorem occursAt_cons_succ {pat s : List Char} {c : Char} {j : Nat} :
    occursAt pat (c :: s) (j + 1) ↔ occursAt pat s j := by
  simp only [occursAt, List.drop_succ_cons, List.length_cons]
  constructor <;> rintro ⟨h1, h2⟩ <;> exact ⟨by omega, h2⟩

/-- `strFind` returns an actual occurrence, and the leftmost one. -/
theorem strFind_eq_some {pat s : List Char} {i : Nat} (h : strFind pat s = some i) :
    occursAt pat s i ∧ ∀ j < i, ¬ occursAt pat s j := by
  induction s generalizing i with
  | nil =>
    simp only [strFind] at h
    split at h
    · next hp =>
      injection h with h'
      subst h'
      subst hp
      exact ⟨⟨by simp, by simp⟩, fun j hj => by omega⟩
    · simp at h
  | cons c rest ih =>
    simp only [strFind] at h
    split at h
    · next hp =>
      injection h with h'
      subst h'
      exact ⟨occursAt_zero.mpr (List.isPrefixOf_iff_prefix.mp hp), fun j hj => by omega⟩
    · next hp =>
      rcases Option.map_eq_some'.mp h with ⟨n, hn, rfl⟩
      obtain ⟨h1, h2⟩ := ih hn
      refine ⟨occursAt_cons_succ.mpr h1, ?_⟩
      intro j hj
      match j with
      | 0 =>
        intro hocc
        exact hp (List.isPrefixOf_iff_prefix.mpr (occursAt_zero.mp hocc))
      | j + 1 =>
        intro hocc
        exact h2 j (by omega) (occursAt_cons_succ.mp hocc)

/-- When `strFind` fails, the pattern occurs nowhere. -/
theorem strFind_eq_none {pat s : List Char} (h : strFind pat s = none) :
    ∀ j, ¬ occursAt pat s j := by
  induction s with
  | nil =>
    intro j hocc
    simp only [strFind] at h
    split at h
    · simp at h
    · next hp =>
      obtain ⟨h1, _⟩ := hocc
      simp only [List.length_nil, Nat.le_zero] at h1
      exact hp (List.eq_nil_of_length_eq_zero (by omega))
  | cons c rest ih =>
    intro j hocc
    simp only [strFind] at h
    split at h
    · simp at h
    · next hp =>
      have hrest : strFind pat rest = none := Option.map_eq_none'.mp h
      match j with
      | 0 => exact hp (List.isPrefixOf_iff_prefix.mpr (occursAt_zero.mp hocc))
      | j + 1 => exact ih hrest j (occursAt_cons_succ.mp hocc)

theorem strFind_isSome_iff {pat s : List Char} :
    (strFind pat s).isSome = true ↔ ∃ k, occursAt pat s k := by
  cases hsf : strFind pat s with
  | none =>
    simp only [Option.isSome_none, Bool.false_eq_true, false_iff, not_exists]
    exact strFind_eq_none hsf
  | some i =>
    simp only [Option.isSome_some, true_iff]
    exact ⟨i, (strFind_eq_some hsf).1⟩

/-- Splitting a list at an occurrence of `pat` reassembles the list. -/
theorem occursAt_take_append_drop {pat line : List Char} {hs : Nat}
    (h : occursAt pat line hs) :
    line.take hs ++ pat ++ line.drop (hs + pat.length) = line := by
  obtain ⟨hlen, t, ht⟩ := h
  have ht2 : line.drop (hs + pat.length) = t := by
    rw [← List.drop_drop, ← ht, List.drop_left]
  calc line.take hs ++ pat ++ line.drop (hs + pat.length)
      = line.take hs ++ (pat ++ t) := by rw [ht2, List.append_assoc]
    _ = line.take hs ++ line.drop hs := by rw [ht]
    _ = line := List.take_append_drop hs line

/-- Unpacking a successful `findFirstHl`: the found span is highlighted and
its text occurs in the line, at the index `strFind` reports. -/
theorem findFirstHl_some {spans : List Span} {line : List Char} {info : Span}
    (h : findFirstHl spans line = some info) :
    info ∈ spans ∧ info.highlighted = true ∧
      ∃ hs, strFind info.text line = some hs := by
  have hmem := List.mem_of_find?_eq_some h
  have hpred := List.find?_some h
  simp only [Bool.and_eq_true, Option.isSome_iff_exists] at hpred
  exact ⟨hmem, hpred.1, hpred.2⟩

/-- C7: concatenating the styled runs of a wrapped line, in order,
reproduces the line's text exactly — the runs partition the line with no
gaps, no overlaps, and no added or removed characters. -/
theorem styleLine_runs_join (spans : List Span) (line : List Char) :
    ((styleLine spans line).map Prod.fst).join = line := by
  rcases hfind : findFirstHl spans line with _ | info
  · simp [styleLine, hfind]
  · obtain ⟨_, _, hs, hsf⟩ := findFirstHl_some hfind
    have hocc := (strFind_eq_some hsf).1
    have hjoin := occursAt_take_append_drop hocc
    simp only [styleLine, hfind, hsf, Option.getD_some]
    split_ifs with h1 h2 h3
    · simpa using hjoin
    · rw [not_not] at h2
      rw [h2, List.append_nil] at hjoin
      simpa using hjoin
    · have h0 : hs = 0 := by omega
      subst h0
      simpa using hjoin
    · rw [not_not] at h3
      have h0 : hs = 0 := by omega
      subst h0
      rw [h3, List.append_nil] at hjoin
      simpa using hjoin

/-- C1: for every wrapped line, only the first highlighted span whose text
occurs in the line participates in styling: the line is rendered as at most
three runs, at most one of them in the highlight font, and any highlight-font
run carries exactly the text of the first matching highlighted span — all
remaining material of the line, including any further highlighted span
material, is rendered in the normal font. -/
theorem styleLine_first_highlight_only (spans : List Span) (line : List Char) :
    (styleLine spans line).length ≤ 3 ∧
      ((styleLine spans line).filter
          (fun r => r.2 == FontKind.highlight)).length ≤ 1 ∧
      ∀ r ∈ styleLine spans line, r.2 = FontKind.highlight →
        ∃ info, findFirstHl spans line = some info ∧ r.1 = info.text := by
  rcases hfind : findFirstHl spans line with _ | info
  · refine ⟨by simp [styleLine, hfind], by simp [styleLine, hfind], ?_⟩
    intro r hr hfont
    simp only [styleLine, hfind, List.mem_singleton] at hr
    rw [hr] at hfont
    simp at hfont
  · simp only [styleLine, hfind]
    refine ⟨?_, ?_, ?_⟩
    · split_ifs <;> simp
    · split_ifs <;> simp
    · intro r hr hfont
      refine ⟨info, rfl, ?_⟩
      split_ifs at hr with h1 h2 h3
      · simp only [List.mem_append, List.mem_singleton, List.not_mem_nil,
          or_false] at hr
        rcases hr with (hr | hr) | hr
        · rw [hr] at hfont; simp at hfont
        · rw [hr]
        · rw [hr] at hfont; simp at hfont
      · simp only [List.mem_append, List.mem_singleton, List.not_mem_nil,
          or_false] at hr
        rcases hr with hr | hr
        · rw [hr] at hfont; simp at hfont
        · rw [hr]
      · simp only [List.nil_append, List.mem_append, List.mem_singleton,
          List.not_mem_nil, or_false] at hr
        rcases hr with hr | hr
        · rw [hr]
        · rw [hr] at hfont; simp at hfont
      · simp only [List.nil_append, List.mem_append, List.mem_singleton,
          List.not_mem_nil, or_false] at hr
        rw [hr]

/-- C10: a wrapped line receives a highlight-font run iff the entire text of
some highlighted span occurs as a contiguous substring of the line
(`occursAt` is substring search on the line's characters, not source
offsets); and the styled highlight sits at the leftmost occurrence: the
runs before the highlight run concatenate to exactly the first `hs`
characters of the line, where `hs` is the least index at which the first
matching span's text occurs. -/
theorem styleLine_highlight_iff_substring (spans : List Span) (line : List Char) :
    ((∃ r ∈ styleLine spans line, r.2 = FontKind.highlight) ↔
      ∃ i ∈ spans, i.highlighted = true ∧ ∃ k, occursAt i.text line k) ∧
    ∀ info, findFirstHl spans line = some info →
      ∃ hs, occursAt info.text line hs ∧ (∀ j < hs, ¬ occursAt info.text line j) ∧
        (runsBefore (styleLine spans line)).join = line.take hs := by
  constructor
  · constructor
    · rintro ⟨r, hr, hfont⟩
      rcases hfind : findFirstHl spans line with _ | info
      · simp only [styleLine, hfind, List.mem_singleton] at hr
        rw [hr] at hfont
        simp at hfont
      · obtain ⟨hmem, hhl, hs, hsf⟩ := findFirstHl_some hfind
        exact ⟨info, hmem, hhl, hs, (strFind_eq_some hsf).1⟩
    · rintro ⟨i, hmem, hhl, k, hocc⟩
      have hsome : (strFind i.text line).isSome = true :=
        strFind_isSome_iff.mpr ⟨k, hocc⟩
      have hfs : (findFirstHl spans line).isSome = true := by
        rw [findFirstHl, List.find?_isSome]
        exact ⟨i, hmem, by rw [Bool.and_eq_true]; exact ⟨hhl, hsome⟩⟩
      rcases hfind : findFirstHl spans line with _ | info
      · rw [hfind] at hfs; simp at hfs
      · refine ⟨(info.text, FontKind.highlight), ?_, rfl⟩
        simp [styleLine, hfind]
  · intro info h
    obtain ⟨_, _, hs, hsf⟩ := findFirstHl_some h
    obtain ⟨hocc, hleft⟩ := strFind_eq_some hsf
    refine ⟨hs, hocc, hleft, ?_⟩
    simp only [styleLine, h, hsf, Option.getD_some]
    split_ifs with h1 h2 h3
    · simp [runsBefore]
    · simp [runsBefore]
    · have h0 : hs = 0 := by omega
      subst h0
      simp [runsBefore]
    · have h0 : hs = 0 := by omega
      subst h0
      simp [runsBefore]

/-- C2 counterexample: with character-count measure and `maxWidth = 5`, the
segments `("aa", Normal) ("bb cc", Highlight) ("dd", Normal)` merge to
`"aa bb cc dd"` with the highlighted span at offsets `[3, 8)`, and wrap to
the two lines `"aa bb"` (offsets `[0, 5)`) and `"cc dd"` — so the span
straddles the line boundary.  The claim requires line 1 to end with a
Highlight run covering `"bb"` and line 2 to begin with one covering
`"cc"`; instead the styler renders both lines as a single Normal run —
no clipping happens. -/
theorem highlight_straddle_not_clipped :
    wrap_text (fun s => s.length) 5
        (buildParagraph [(['a', 'a'], false), (['b', 'b', ' ', 'c', 'c'], true),
          (['d', 'd'], false)]).1 =
      [['a', 'a', ' ', 'b', 'b'], ['c', 'c', ' ', 'd', 'd']] ∧
    (buildParagraph [(['a', 'a'], false), (['b', 'b', ' ', 'c', 'c'], true),
        (['d', 'd'], false)]).2 =
      [⟨0, 2, false, ['a', 'a']⟩, ⟨3, 8, true, ['b', 'b', ' ', 'c', 'c']⟩,
        ⟨9, 11, false, ['d', 'd']⟩] ∧
    styleLine
        [⟨0, 2, false, ['a', 'a']⟩, ⟨3, 8, true, ['b', 'b', ' ', 'c', 'c']⟩,
          ⟨9, 11, false, ['d', 'd']⟩] ['a', 'a', ' ', 'b', 'b'] =
      [(['a', 'a', ' ', 'b', 'b'], FontKind.normal)] ∧
    styleLine
        [⟨0, 2, false, ['a', 'a']⟩, ⟨3, 8, true, ['b', 'b', ' ', 'c', 'c']⟩,
          ⟨9, 11, false, ['d', 'd']⟩] ['c', 'c', ' ', 'd', 'd'] =
      [(['c', 'c', ' ', 'd', 'd'], FontKind.normal)] := by
  refine ⟨by decide, by decide, by decide, by decide⟩

/-- C2 amended: the styler never clips a span to a line.  When no
highlighted span's full text occurs anywhere in a wrapped line — in
particular when the only Highlight span straddles the boundary between two
wrapped lines, so that its text occurs in neither line — the line is
rendered as a single Normal-font run covering the whole line. -/
theorem styleLine_no_occurrence_all_normal (spans : List Span)
    (line : List Char)
    (h : ∀ i ∈ spans, i.highlighted = true →
      ∀ k ≤ line.length, ¬ occursAt i.text line k) :
    styleLine spans line = [(line, FontKind.normal)] := by
  have hfind : findFirstHl spans line = none := by
    rw [findFirstHl, List.find?_eq_none]
    intro i hi
    rw [Bool.and_eq_true, not_and]
    intro hhl
    cases hsf : strFind i.text line with
    | none => simp
    | some j =>
      obtain ⟨⟨hlen, hpre⟩, _⟩ := strFind_eq_some hsf
      exact absurd ⟨hlen, hpre⟩ (h i hi hhl j (by omega))
  simp [styleLine, hfind]

/-- Witness for the amended C2 theorem at the straddling input: line 1 of
the counterexample scenario is rendered as one Normal run. -/
theorem styleLine_no_occurrence_all_normal_witness :
    styleLine
        [⟨0, 2, false, ['a', 'a']⟩, ⟨3, 8, true, ['b', 'b', ' ', 'c', 'c']⟩,
          ⟨9, 11, false, ['d', 'd']⟩] ['a', 'a', ' ', 'b', 'b'] =
      [(['a', 'a', ' ', 'b', 'b'], FontKind.normal)] :=
  styleLine_no_occurrence_all_normal
    [⟨0, 2, false, ['a', 'a']⟩, ⟨3, 8, true, ['b', 'b', ' ', 'c', 'c']⟩,
      ⟨9, 11, false, ['d', 'd']⟩] ['a', 'a', ' ', 'b', 'b'] (by decide)

/-- C5: a word whose measured width alone exceeds `maxWidth`, reached while
the line buffer is empty, is emitted unmodified as its own line — never
truncated or split — and the wrapper continues with an empty buffer. -/
theorem wrapStep_overflow_word (m : List Char → Nat) (maxWidth : Nat)
    (lines : List (List Char)) (word : List Char) (h : maxWidth < m word) :
    wrapStep m maxWidth (lines, []) word = (lines ++ [word], []) := by
  simp [wrapStep, Nat.not_le.mpr h]

/-- Witness for C5: the nine-character word `"wwwwwwwww"` against a
character-count measure and `maxWidth = 6` is emitted whole. -/
theorem wrapStep_overflow_word_witness :
    6 < (fun s : List Char => s.length) ['w', 'w', 'w', 'w', 'w', 'w', 'w', 'w', 'w'] ∧
    wrapStep (fun s : List Char => s.length) 6 ([], [])
        ['w', 'w', 'w', 'w', 'w', 'w', 'w', 'w', 'w'] =
      ([['w', 'w', 'w', 'w', 'w', 'w', 'w', 'w', 'w']], []) :=
  ⟨by decide,
    wrapStep_overflow_word (fun s => s.length) 6 []
      ['w', 'w', 'w', 'w', 'w', 'w', 'w', 'w', 'w'] (by decide)⟩

/-- C6 counterexample: the claim reads "insert exactly one space separator
unless the segment's text already starts with whitespace".  The code tests
`text.startswith(' ')` — the space character only.  Appending the segment
`"\tb"` (which starts with whitespace, but not with a space) to the
accumulated text `"a"` inserts a separator anyway, so the claim as stated
is false. -/
theorem buildStep_whitespace_claim_false :
    ¬ ∀ (acc : List Char) (spans : List Span) (text : List Char) (hl : Bool),
        text ≠ [] → acc ≠ [] → text.head?.all Char.isWhitespace = true →
        (buildStep (acc, spans) (text, hl)).1 = acc ++ text := by
  intro h
  exact absurd (h ['a'] [] ['\t', 'b'] true (by decide) (by decide) (by decide))
    (by decide)

/-- Fold invariant: a property preserved by every step holds of the fold. -/
theorem foldl_inv {α β : Type} {f : α → β → α} {C : α → Prop} :
    ∀ (l : List β) (a : α), C a → (∀ x ∈ l, ∀ b, C b → C (f b x)) →
      C (l.foldl f a)
  | [], _, h, _ => h
  | x :: l, a, h, hstep =>
    foldl_inv l (f a x) (hstep x (List.mem_cons_self x l) a h)
      fun y hy b hb => hstep y (List.mem_cons_of_mem x hy) b hb

/-- A span valid for `acc` stays valid when text is appended after it. -/
theorem span_valid_extend {acc ext : List Char} {s : Span}
    (h1 : s.stop ≤ acc.length) (h2 : (acc.take s.stop).drop s.start = s.text) :
    s.stop ≤ (acc ++ ext).length ∧
      ((acc ++ ext).take s.stop).drop s.start = s.text := by
  constructor
  · simp only [List.length_append]
    omega
  · rw [List.take_append_of_le_length h1]
    exact h2

/-- C6 amended (the code tests for a leading space character, not leading
whitespace): the paragraph builder skips empty segments entirely; appending
a non-empty segment inserts exactly one space separator unless the
accumulated text is empty or the segment's text already starts with the
space character `' '`; and every recorded span occupies in the merged text
exactly the `[start, stop)` range holding its segment's text. -/
theorem buildParagraph_ok (parts : List (List Char × Bool)) :
    (∀ (acc : List Char) (spans : List Span) (hl : Bool),
      buildStep (acc, spans) ([], hl) = (acc, spans)) ∧
    (∀ (acc : List Char) (spans : List Span) (text : List Char) (hl : Bool),
      text ≠ [] →
      (buildStep (acc, spans) (text, hl)).1 =
        acc ++ (if acc ≠ [] ∧ text.head? ≠ some ' ' then [' '] else []) ++ text) ∧
    ∀ s ∈ (buildParagraph parts).2,
      s.stop ≤ (buildParagraph parts).1.length ∧
      ((buildParagraph parts).1.take s.stop).drop s.start = s.text := by
  refine ⟨fun acc spans hl => by simp [buildStep], ?_, ?_⟩
  · intro acc spans text hl htext
    simp only [buildStep, if_neg htext]
    split_ifs with hsep
    · simp
    · simp
  · unfold buildParagraph
    refine @foldl_inv (List Char × List Span) (List Char × Bool) buildStep
      (fun st => ∀ s ∈ st.2, s.stop ≤ st.1.length ∧
        (st.1.take s.stop).drop s.start = s.text) parts ([], []) ?_ ?_
    · intro s hs
      simp at hs
    rintro ⟨text, hl⟩ _ ⟨acc, spans⟩ hC
    by_cases htext : text = []
    · subst htext
      have hstep : buildStep (acc, spans) ([], hl) = (acc, spans) := by
        simp [buildStep]
      rw [hstep]
      exact hC
    · simp only [buildStep, if_neg htext]
      split_ifs with hsep
      · intro s hs
        rcases List.mem_append.mp hs with hs | hs
        · obtain ⟨h1, h2⟩ := hC s hs
          rw [List.append_assoc]
          exact span_valid_extend h1 h2
        · simp only [List.mem_singleton] at hs
          subst hs
          exact ⟨le_rfl, by rw [List.take_length, List.drop_left]⟩
      · intro s hs
        rcases List.mem_append.mp hs with hs | hs
        · obtain ⟨h1, h2⟩ := hC s hs
          exact span_valid_extend h1 h2
        · simp only [List.mem_singleton] at hs
          subst hs
          exact ⟨le_rfl, by rw [List.take_length, List.drop_left]⟩

/-! ### Words produced by `pyWords` -/

theorem pyWordsAux_words {s : List Char} :
    ∀ {acc : List Char}, (∀ c ∈ acc, isPySpace c = false) →
      ∀ w ∈ pyWordsAux s acc, IsWord w := by
  induction s with
  | nil =>
    intro acc hacc w hw
    simp only [pyWordsAux] at hw
    split at hw
    · simp at hw
    · next hne =>
      simp only [List.mem_singleton] at hw
      subst hw
      exact ⟨by simpa using hne, fun c hc => hacc c (List.mem_reverse.mp hc)⟩
  | cons c rest ih =>
    intro acc hacc w hw
    simp only [pyWordsAux] at hw
    split at hw
    · next hsp =>
      split at hw
      · exact ih (by simp) w hw
      · next hne =>
        rcases List.mem_cons.mp hw with hw | hw
        · subst hw
          exact ⟨by simpa using hne, fun x hx => hacc x (List.mem_reverse.mp hx)⟩
        · exact ih (by simp) w hw
    · next hsp =>
      refine ih ?_ w hw
      intro x hx
      rcases List.mem_cons.mp hx with hx | hx
      · subst hx
        simpa using hsp
      · exact hacc x hx

/-- Every word of `pyWords s` is non-empty and whitespace-free. -/
theorem pyWords_words {s : List Char} : ∀ w ∈ pyWords s, IsWord w :=
  pyWordsAux_words (by simp)

/-- Consuming a whitespace-free chunk just extends the accumulator. -/
theorem pyWordsAux_append_nospace {w : List Char}
    (hns : ∀ c ∈ w, isPySpace c = false) :
    ∀ (s acc : List Char),
      pyWordsAux (w ++ s) acc = pyWordsAux s (w.reverse ++ acc) := by
  induction w with
  | nil => intro s acc; simp
  | cons c w' ih =>
    intro s acc
    have hc : isPySpace c = false := hns c (List.mem_cons_self c w')
    have hns' : ∀ x ∈ w', isPySpace x = false :=
      fun x hx => hns x (List.mem_cons_of_mem c hx)
    have step : pyWordsAux ((c :: w') ++ s) acc = pyWordsAux (w' ++ s) (c :: acc) := by
      simp only [List.cons_append, pyWordsAux, hc, Bool.false_eq_true, if_false]
      rfl
    rw [step, ih hns' s (c :: acc)]
    simp [List.append_assoc]

/-- A single word splits as itself. -/
theorem pyWords_single {w : List Char} (hw : IsWord w) : pyWords w = [w] := by
  obtain ⟨hne, hns⟩ := hw
  have h := pyWordsAux_append_nospace hns [] []
  rw [List.append_nil, List.append_nil] at h
  rw [pyWords, h, pyWordsAux]
  have : w.reverse ≠ [] := by simpa using hne
  simp [this]

/-- Splitting words joined by single spaces recovers the words. -/
theorem pyWords_sepJoin : ∀ {gs : List (List Char)},
    (∀ w ∈ gs, IsWord w) → pyWords (sepJoin gs) = gs := by
  intro gs
  induction gs with
  | nil => intro _; rfl
  | cons w ws ih =>
    intro hgs
    have hw : IsWord w := hgs w (List.mem_cons_self w ws)
    have hws : ∀ x ∈ ws, IsWord x := fun x hx => hgs x (List.mem_cons_of_mem w hx)
    cases ws with
    | nil => exact pyWords_single hw
    | cons w2 ws2 =>
      have hsep : sepJoin (w :: w2 :: ws2) = w ++ ' ' :: sepJoin (w2 :: ws2) := by
        simp [sepJoin]
      rw [hsep, pyWords, pyWordsAux_append_nospace hw.2, List.append_nil]
      have hrev : w.reverse ≠ [] := by simpa using hw.1
      simp only [pyWordsAux, isPySpace, if_pos, hrev]
      simp only [List.reverse_reverse]
      rw [show pyWordsAux (sepJoin (w2 :: ws2)) [] = pyWords (sepJoin (w2 :: ws2))
          from rfl, ih hws]
      simp

/-- Joined non-empty words are empty only for the empty word list. -/
theorem sepJoin_eq_nil_iff {gs : List (List Char)}
    (h : ∀ w ∈ gs, IsWord w) : sepJoin gs = [] ↔ gs = [] := by
  cases gs with
  | nil => simp [sepJoin]
  | cons w ws =>
    cases ws with
    | nil =>
      simp only [sepJoin]
      have := (h w (by simp)).1
      simp [this]
    | cons w2 ws2 =>
      simp only [sepJoin]
      constructor
      · intro hx
        exact absurd hx (by simp)
      · intro hx
        exact absurd hx (by simp)

/-- Appending one more word to a non-empty buffer. -/
theorem sepJoin_append_one {w : List Char} :
    ∀ {gs : List (List Char)}, gs ≠ [] →
      sepJoin (gs ++ [w]) = sepJoin gs ++ ' ' :: w := by
  intro gs
  induction gs with
  | nil => intro h; exact absurd rfl h
  | cons g gs' ih =>
    intro _
    cases gs' with
    | nil => simp [sepJoin]
    | cons g2 gs2 =>
      have h2 : g2 :: gs2 ≠ [] := by simp
      have hih := ih h2
      simp only [List.cons_append] at hih ⊢
      calc sepJoin (g :: g2 :: (gs2 ++ [w]))
          = g ++ ' ' :: sepJoin (g2 :: (gs2 ++ [w])) := by simp [sepJoin]
        _ = g ++ ' ' :: (sepJoin (g2 :: gs2) ++ ' ' :: w) := by rw [hih]
        _ = (g ++ ' ' :: sepJoin (g2 :: gs2)) ++ ' ' :: w := by
              simp [List.append_assoc]
        _ = sepJoin (g :: g2 :: gs2) ++ ' ' :: w := by simp [sepJoin]

/-! ### The greedy wrap preserves words -/

theorem wrapStep_accept {m : List Char → Nat} {maxW : Nat}
    {lines : List (List Char)} {cur word : List Char}
    (h : m (cur ++ (if cur = [] then [] else [' ']) ++ word) ≤ maxW) :
    wrapStep m maxW (lines, cur) word =
      (lines, cur ++ (if cur = [] then [] else [' ']) ++ word) := by
  simp only [wrapStep, if_pos h]

theorem wrapStep_flush {m : List Char → Nat} {maxW : Nat}
    {lines : List (List Char)} {cur word : List Char}
    (h : ¬ m (cur ++ (if cur = [] then [] else [' ']) ++ word) ≤ maxW)
    (hcur : cur ≠ []) :
    wrapStep m maxW (lines, cur) word = (lines ++ [cur], word) := by
  simp only [wrapStep, if_neg h, if_pos hcur]

theorem wrapStep_flush_empty {m : List Char → Nat} {maxW : Nat}
    {lines : List (List Char)} {word : List Char}
    (h : ¬ m word ≤ maxW) :
    wrapStep m maxW (lines, []) word = (lines ++ [word], []) := by
  simp [wrapStep, h]

/-- The wrap fold keeps `(lines, buffer)` in the shape
`(groups of words joined by single spaces, one joined group)`, and the
word groups concatenate to exactly the words already consumed. -/
theorem wrapFold_groups (m : List Char → Nat) (maxW : Nat) :
    ∀ (ws : List (List Char)), (∀ w ∈ ws, IsWord w) →
    ∀ (gss : List (List (List Char))) (curg : List (List Char)),
      (∀ g ∈ gss, g ≠ []) →
      (∀ g ∈ gss, ∀ w ∈ g, IsWord w) →
      (∀ w ∈ curg, IsWord w) →
      ∃ (gss' : List (List (List Char))) (curg' : List (List Char)),
        ws.foldl (wrapStep m maxW) (gss.map sepJoin, sepJoin curg) =
          (gss'.map sepJoin, sepJoin curg') ∧
        gss'.join ++ curg' = gss.join ++ curg ++ ws ∧
        (∀ g ∈ gss', g ≠ []) ∧
        (∀ g ∈ gss', ∀ w ∈ g, IsWord w) ∧
        (∀ w ∈ curg', IsWord w) := by
  intro ws
  induction ws with
  | nil =>
    intro _ gss curg h1 h2 h3
    exact ⟨gss, curg, rfl, by simp, h1, h2, h3⟩
  | cons w ws' ih =>
    intro hws gss curg h1 h2 h3
    have hw : IsWord w := hws w (List.mem_cons_self w ws')
    have hws' : ∀ x ∈ ws', IsWord x := fun x hx => hws x (List.mem_cons_of_mem w hx)
    simp only [List.foldl_cons]
    by_cases hcur : curg = []
    · subst hcur
      simp only [sepJoin]
      by_cases hm : m ([] ++ (if ([] : List Char) = [] then [] else [' ']) ++ w) ≤ maxW
      · rw [wrapStep_accept hm]
        have hbuf : ([] : List Char) ++ (if ([] : List Char) = [] then [] else [' ']) ++ w
            = sepJoin [w] := by simp [sepJoin]
        rw [hbuf]
        obtain ⟨gss', curg', heq, hjoin, p1, p2, p3⟩ :=
          ih hws' gss [w] h1 h2 (by intro x hx; simp at hx; subst hx; exact hw)
        refine ⟨gss', curg', heq, ?_, p1, p2, p3⟩
        rw [hjoin]
        simp
      · have hm' : ¬ m w ≤ maxW := by simpa using hm
        rw [wrapStep_flush_empty hm']
        have hmap : gss.map sepJoin ++ [w] = (gss ++ [[w]]).map sepJoin := by
          simp [sepJoin]
        rw [hmap, show ([] : List Char) = sepJoin [] from rfl]
        obtain ⟨gss', curg', heq, hjoin, p1, p2, p3⟩ :=
          ih hws' (gss ++ [[w]]) []
            (by intro g hg; rcases List.mem_append.mp hg with hg | hg
                · exact h1 g hg
                · simp at hg; subst hg; simp)
            (by intro g hg x hx; rcases List.mem_append.mp hg with hg | hg
                · exact h2 g hg x hx
                · simp at hg; subst hg; simp at hx; subst hx; exact hw)
            (by simp)
        refine ⟨gss', curg', heq, ?_, p1, p2, p3⟩
        rw [hjoin]
        simp
    · have hcur' : sepJoin curg ≠ [] := by
        rw [Ne, sepJoin_eq_nil_iff h3]
        exact hcur
      by_cases hm : m (sepJoin curg ++
          (if sepJoin curg = [] then [] else [' ']) ++ w) ≤ maxW
      · rw [wrapStep_accept hm]
        have hbuf : sepJoin curg ++ (if sepJoin curg = [] then [] else [' ']) ++ w
            = sepJoin (curg ++ [w]) := by
          rw [if_neg hcur', sepJoin_append_one hcur]
          simp
        rw [hbuf]
        obtain ⟨gss', curg', heq, hjoin, p1, p2, p3⟩ :=
          ih hws' gss (curg ++ [w]) h1 h2
            (by intro x hx; rcases List.mem_append.mp hx with hx | hx
                · exact h3 x hx
                · simp at hx; subst hx; exact hw)
        refine ⟨gss', curg', heq, ?_, p1, p2, p3⟩
        rw [hjoin]
        simp [List.append_assoc]
      · rw [wrapStep_flush hm hcur']
        have hmap : gss.map sepJoin ++ [sepJoin curg] = (gss ++ [curg]).map sepJoin := by
          simp
        obtain ⟨gss', curg', heq, hjoin, p1, p2, p3⟩ :=
          ih hws' (gss ++ [curg]) [w]
            (by intro g hg; rcases List.mem_append.mp hg with hg | hg
                · exact h1 g hg
                · simp at hg; subst hg; exact hcur)
            (by intro g hg x hx; rcases List.mem_append.mp hg with hg | hg
                · exact h2 g hg x hx
                · simp at hg; subst hg; exact h3 x hx)
            (by intro x hx; simp at hx; subst hx; exact hw)
        refine ⟨gss', curg', ?_, ?_, p1, p2, p3⟩
        · rw [hmap]
          exact heq
        · rw [hjoin]
          simp [List.append_assoc]

/-- C3: for every input string, measure function and positive `maxWidth`,
the ordered concatenation of the whitespace-delimited words of all wrapped
lines equals the ordered word sequence of the input — no word is split,
dropped, or duplicated. -/
theorem wrap_text_preserves_words (m : List Char → Nat) (maxW : Nat)
    (text : List Char) (hpos : 0 < maxW) :
    ((wrap_text m maxW text).map pyWords).join = pyWords text := by
  obtain ⟨gss', curg', heq, hjoin, hne, hP, hcurP⟩ :=
    wrapFold_groups m maxW (pyWords text) pyWords_words [] []
      (by simp) (by simp) (by simp)
  have hmapid : ∀ (L : List (List (List Char))), (∀ g ∈ L, ∀ w ∈ g, IsWord w) →
      (L.map sepJoin).map pyWords = L := by
    intro L hL
    induction L with
    | nil => rfl
    | cons g L' ihL =>
      simp only [List.map_cons, List.cons.injEq]
      exact ⟨pyWords_sepJoin (hL g (List.mem_cons_self g L')),
        ihL fun x hx => hL x (List.mem_cons_of_mem g hx)⟩
  simp only [List.map_nil, show sepJoin [] = [] from rfl] at heq
  simp only [wrap_text, heq]
  by_cases hc : curg' = []
  · subst hc
    simp only [show sepJoin [] = [] from rfl, if_pos]
    rw [hmapid gss' hP]
    simpa using hjoin
  · rw [if_neg (fun hnil => hc ((sepJoin_eq_nil_iff hcurP).mp hnil))]
    rw [List.map_append, hmapid gss' hP]
    simp only [List.map_cons, List.map_nil, pyWords_sepJoin hcurP]
    have hja : (gss' ++ [curg']).join = gss'.join ++ curg' := by simp
    rw [hja]
    simpa using hjoin

/-- Witness for C3 at a concrete input: `"aa bb cc dd"` with a
character-count measure and `maxWidth = 5`. -/
theorem wrap_text_preserves_words_witness :
    0 < 5 ∧
    ((wrap_text (fun s : List Char => s.length) 5
        ['a', 'a', ' ', 'b', 'b', ' ', 'c', 'c', ' ', 'd', 'd']).map pyWords).join =
      pyWords ['a', 'a', ' ', 'b', 'b', ' ', 'c', 'c', ' ', 'd', 'd'] :=
  ⟨by decide,
    wrap_text_preserves_words (fun s => s.length) 5
      ['a', 'a', ' ', 'b', 'b', ' ', 'c', 'c', ' ', 'd', 'd'] (by decide)⟩

/-- C4: every wrapped line either fits the width budget or consists of a
single word (the only lines allowed to overflow are single-overflowing-word
lines, so every other line satisfies the bound). -/
theorem wrap_text_width_bound (m : List Char → Nat) (maxW : Nat)
    (text : List Char) :
    ∀ l ∈ wrap_text m maxW text, m l ≤ maxW ∨ (pyWords l).length = 1 := by
  have hstep : ∀ w ∈ pyWords text,
      ∀ st : List (List Char) × List Char,
        ((∀ l ∈ st.1, m l ≤ maxW ∨ (pyWords l).length = 1) ∧
          (st.2 = [] ∨ m st.2 ≤ maxW ∨ (pyWords st.2).length = 1)) →
        ((∀ l ∈ (wrapStep m maxW st w).1, m l ≤ maxW ∨ (pyWords l).length = 1) ∧
          ((wrapStep m maxW st w).2 = [] ∨ m (wrapStep m maxW st w).2 ≤ maxW ∨
            (pyWords (wrapStep m maxW st w).2).length = 1)) := by
    rintro w hw ⟨lines, cur⟩ ⟨hl, hc⟩
    have hword : IsWord w := pyWords_words w hw
    by_cases hm : m (cur ++ (if cur = [] then [] else [' ']) ++ w) ≤ maxW
    · rw [wrapStep_accept hm]
      exact ⟨hl, Or.inr (Or.inl hm)⟩
    · by_cases hcur : cur = []
      · subst hcur
        have hm' : ¬ m w ≤ maxW := by simpa using hm
        rw [wrapStep_flush_empty hm']
        refine ⟨?_, Or.inl rfl⟩
        intro l hlm
        rcases List.mem_append.mp hlm with hlm | hlm
        · exact hl l hlm
        · simp only [List.mem_singleton] at hlm
          subst hlm
          exact Or.inr (by rw [pyWords_single hword]; rfl)
      · rw [wrapStep_flush hm hcur]
        refine ⟨?_, Or.inr (Or.inr (by rw [pyWords_single hword]; rfl))⟩
        intro l hlm
        rcases List.mem_append.mp hlm with hlm | hlm
        · exact hl l hlm
        · simp only [List.mem_singleton] at hlm
          subst hlm
          rcases hc with hc | hc
          · exact absurd hc hcur
          · exact hc
  have key := @foldl_inv (List (List Char) × List Char) (List Char)
    (wrapStep m maxW)
    (fun st => (∀ l ∈ st.1, m l ≤ maxW ∨ (pyWords l).length = 1) ∧
      (st.2 = [] ∨ m st.2 ≤ maxW ∨ (pyWords st.2).length = 1))
    (pyWords text) ([], []) ⟨by simp, Or.inl rfl⟩ hstep
  obtain ⟨hl, hc⟩ := key
  intro l hlm
  simp only [wrap_text] at hlm
  split at hlm
  · exact hl l hlm
  · next hcc =>
    rcases List.mem_append.mp hlm with hlm | hlm
    · exact hl l hlm
    · simp only [List.mem_singleton] at hlm
      subst hlm
      rcases hc with hc | hc
      · exact absurd hc hcc
      · exact hc

/-- Witness for C4: in the wrap of `"wwwwwwwww aa"` at `maxWidth = 6`, the
line `"aa"` satisfies the width bound (and the overflowing line
`"wwwwwwwww"` is a single word). -/
theorem wrap_text_width_bound_witness :
    ((fun s : List Char => s.length) ['a', 'a'] ≤ 6 ∨
      (pyWords ['a', 'a']).length = 1) ∧
    ((fun s : List Char => s.length) ['w', 'w', 'w', 'w', 'w', 'w', 'w', 'w', 'w'] ≤ 6 ∨
      (pyWords ['w', 'w', 'w', 'w', 'w', 'w', 'w', 'w', 'w']).length = 1) :=
  ⟨wrap_text_width_bound (fun s => s.length) 6
      ['w', 'w', 'w', 'w', 'w', 'w', 'w', 'w', 'w', ' ', 'a', 'a'] ['a', 'a']
      (by decide),
    wrap_text_width_bound (fun s => s.length) 6
      ['w', 'w', 'w', 'w', 'w', 'w', 'w', 'w', 'w', ' ', 'a', 'a']
      ['w', 'w', 'w', 'w', 'w', 'w', 'w', 'w', 'w'] (by decide)⟩

/-- C8: the attribution block.  Each present field yields exactly one line
(title first, then the author line prefixed with the em-dash marker) and
absent fields contribute none; the first attribution draw command sits at
`y = imageHeight - 50 - (count * (fontSize + lineSpacing) - lineSpacing)`;
attribution with only author `"Jane Doe"` yields the single line
`"— Jane Doe"`; and in the full layout pass the attribution draws are
exactly `attributionDraws` of the configuration and attribution fields — a
value with no dependence on the quote text, so it never shifts with the
quote's length. -/
theorem attribution_layout (imageHeight fsA lsA : Nat) (x : Int)
    (title author : List Char) :
    (attributionParts title author).length =
      (if title ≠ [] then 1 else 0) + (if author ≠ [] then 1 else 0) ∧
    (title ≠ [] → (attributionParts title author).head? = some title) ∧
    (author ≠ [] → ∃ pre, attributionParts title author =
      pre ++ [['—', ' '] ++ author]) ∧
    (attributionParts title author ≠ [] →
      ∃ c, (attributionDraws imageHeight fsA lsA x title author).head? = some c ∧
        c.x = x ∧
        c.y = (imageHeight : Int) - 50 -
          (((attributionParts title author).length : Int) *
            ((fsA : Int) + (lsA : Int)) - (lsA : Int)) ∧
        c.font = FontKind.attribution) ∧
    attributionParts [] ['J', 'a', 'n', 'e', ' ', 'D', 'o', 'e'] =
      [['—', ' ', 'J', 'a', 'n', 'e', ' ', 'D', 'o', 'e']] ∧
    ∀ (mN mH : List Char → Nat) (imageWidth fsQ lsQ maxW : Nat)
      (p1 p2 p3 : List Char),
      (createFlowingDraws mN mH imageWidth imageHeight fsQ lsQ maxW fsA lsA
          p1 p2 p3 title author).drop
        ((createFlowingDraws mN mH imageWidth imageHeight fsQ lsQ maxW fsA lsA
            p1 p2 p3 title author).length -
          (attributionDraws imageHeight fsA lsA
            (((imageWidth : Int) - (maxW : Int)).fdiv 2) title author).length) =
        attributionDraws imageHeight fsA lsA
          (((imageWidth : Int) - (maxW : Int)).fdiv 2) title author := by
  refine ⟨?_, ?_, ?_, ?_, by decide, ?_⟩
  · simp only [attributionParts]
    split_ifs <;> simp
  · intro ht
    simp only [attributionParts, if_pos ht]
    simp
  · intro ha
    simp only [attributionParts, if_pos ha]
    split_ifs with ht
    · exact ⟨[title], rfl⟩
    · exact ⟨[], rfl⟩
  · intro hne
    simp only [attributionDraws, if_neg hne]
    rcases hp : attributionParts title author with _ | ⟨p, rest⟩
    · exact absurd hp hne
    · have hh : (attrLoop x (fsA + lsA)
          ((imageHeight : Int) - 50 -
            (((p :: rest).length : Int) * ((fsA : Int) + (lsA : Int)) - (lsA : Int)))
          (p :: rest)).head? =
          some ⟨x, (imageHeight : Int) - 50 -
            (((p :: rest).length : Int) * ((fsA : Int) + (lsA : Int)) - (lsA : Int)),
            p, FontKind.attribution⟩ := by
        simp [attrLoop]
      exact ⟨_, hh, rfl, rfl, rfl⟩
  · intro mN mH imageWidth fsQ lsQ maxW p1 p2 p3
    simp only [createFlowingDraws, List.length_append, Nat.add_sub_cancel]
    exact List.drop_left _ _

/-- The first draw command of any line sits at `(x0, y)`. -/
theorem drawLine_head (mN mH : List Char → Nat) (spans : List Span)
    (x0 y : Int) (line : List Char) :
    ∃ c rest, drawLine mN mH spans x0 y line = c :: rest ∧
      c.x = x0 ∧ c.y = y := by
  rcases hfind : findFirstHl spans line with _ | info
  · exact ⟨⟨x0, y, line, FontKind.normal⟩, [], by simp [drawLine, hfind], rfl, rfl⟩
  · simp only [drawLine, hfind]
    split_ifs with h1 h2 <;> refine ⟨_, _, rfl, ?_, ?_⟩ <;> rfl

/-- C9: quote-block layout.  Within a line, the `k`-th draw command keeps
the line's `y` and sits at `x0` plus the sum of the widths of the preceding
runs, each measured in its own font; across lines, `x` resets to `x0` and
`y` advances by `fontSize + lineSpacing` per line (`y0 + i * step` for line
`i`); and the full pass's first quote draw command is at
`((imageWidth - maxWidth) // 2, 50)`. -/
theorem quote_block_positions :
    (∀ (mN mH : List Char → Nat) (spans : List Span) (x0 y : Int)
        (line : List Char) (k : Nat),
      k < (drawLine mN mH spans x0 y line).length →
      ((drawLine mN mH spans x0 y line).getD k ⟨0, 0, [], FontKind.normal⟩).y = y ∧
      ((drawLine mN mH spans x0 y line).getD k ⟨0, 0, [], FontKind.normal⟩).x =
        x0 + (((drawLine mN mH spans x0 y line).take k).map
          (fontWidth mN mH)).sum) ∧
    (∀ (mN mH : List Char → Nat) (spans : List Span) (x0 : Int) (step : Nat)
        (lines : List (List Char)) (y0 : Int),
      quoteLoop mN mH spans x0 step y0 lines =
        ((List.range lines.length).map (fun i =>
          drawLine mN mH spans x0 (y0 + (i * step : Nat)) lines[i]!)).join) ∧
    ∀ (mN mH : List Char → Nat)
      (imageWidth imageHeight fsQ lsQ maxW fsA lsA : Nat)
      (p1 p2 p3 title author : List Char),
      wrap_text mN maxW
          (buildParagraph [(p1, false), (p2, true), (p3, false)]).1 ≠ [] →
      ∃ c cs, createFlowingDraws mN mH imageWidth imageHeight fsQ lsQ maxW
          fsA lsA p1 p2 p3 title author = c :: cs ∧
        c.x = ((imageWidth : Int) - (maxW : Int)).fdiv 2 ∧ c.y = 50 := by
  refine ⟨?_, ?_, ?_⟩
  · intro mN mH spans x0 y line k hk
    rcases hfind : findFirstHl spans line with _ | info
    · simp only [drawLine, hfind] at hk ⊢
      rcases k with _ | k
      · constructor <;> simp
      · simp at hk
    · simp only [drawLine, hfind] at hk ⊢
      split_ifs at hk ⊢ with h1 h2
      · rcases k with _ | _ | _ | k
        · constructor <;> simp
        · constructor <;> simp [fontWidth]
        · constructor <;> simp [fontWidth] <;> push_cast <;> ring
        · simp at hk; omega
      · rcases k with _ | _ | k
        · constructor <;> simp
        · constructor <;> simp [fontWidth]
        · simp only [List.length_append, List.length_cons, List.length_nil] at hk
          omega
      · rcases k with _ | _ | k
        · constructor <;> simp
        · constructor <;> simp [fontWidth]
        · simp only [List.length_append, List.length_cons, List.length_nil] at hk
          omega
      · rcases k with _ | k
        · constructor <;> simp
        · simp only [List.length_append, List.length_cons, List.length_nil] at hk
          omega
  · intro mN mH spans x0 step lines
    induction lines with
    | nil => intro y0; rfl
    | cons l ls ih =>
      intro y0
      simp only [quoteLoop]
      rw [ih (y0 + step)]
      simp only [List.length_cons, List.range_succ_eq_map, List.map_cons,
        List.map_map, List.join_cons]
      have h0 : drawLine mN mH spans x0 (y0 + ((0 * step : Nat) : Int))
          (l :: ls)[0]! = drawLine mN mH spans x0 y0 l := by
        simp
      rw [h0]
      congr 1
      refine congrArg List.join (List.map_congr_left ?_)
      intro i _
      simp only [Function.comp]
      rw [List.getElem!_cons_succ]
      congr 1
      push_cast
      ring
  · intro mN mH imageWidth imageHeight fsQ lsQ maxW fsA lsA p1 p2 p3
      title author hne
    rcases hl : wrap_text mN maxW
        (buildParagraph [(p1, false), (p2, true), (p3, false)]).1 with _ | ⟨l, ls⟩
    · exact absurd hl hne
    · obtain ⟨c, rest, hdl, hx, hy⟩ := drawLine_head mN mH
        (buildParagraph [(p1, false), (p2, true), (p3, false)]).2
        (((imageWidth : Int) - (maxW : Int)).fdiv 2) 50 l
      have heq : createFlowingDraws mN mH imageWidth imageHeight fsQ lsQ maxW
          fsA lsA p1 p2 p3 title author =
          c :: (rest ++
            (quoteLoop mN mH (buildParagraph [(p1, false), (p2, true), (p3, false)]).2
              (((imageWidth : Int) - (maxW : Int)).fdiv 2) (fsQ + lsQ)
              (50 + ((fsQ + lsQ : Nat) : Int)) ls ++
            attributionDraws imageHeight fsA lsA
              (((imageWidth : Int) - (maxW : Int)).fdiv 2) title author)) := by
        simp only [createFlowingDraws, hl, quoteLoop, hdl, List.cons_append,
          List.append_assoc]
      exact ⟨c, _, heq, hx, hy⟩

end TTQC
